import Mathlib

/-!
# Verification of the llmem storage core

A shallow embedding of the storage subsystem of the `llmem` repository
(markdown-file entity store with hybrid semantic/lexical search, a
derived vector index and git-based replication), together with proofs
of the spec's claims about it.

Conventions of the embedding:
* TypeScript strings are `List Char` (named `Str`).
* JavaScript numbers appearing in the scoring code are modelled as `ℚ`;
  the code only adds and multiplies the decimal literals 1.0/0.8/0.6/0.4
  and the weight parameters, so the algebraic structure of the formulas
  is preserved exactly.
* A JavaScript `Map` is an association list with insert-or-update
  semantics (`mset`) preserving first-insertion order, as `Map` does.
* Asynchronous calls that can reject are modelled with `Except`:
  a function receives the outcome of the external call as an
  `Except ε α` argument, and `try`/`catch` is pattern matching.
* The filesystem is an association list from paths to file contents.
-/

set_option linter.unusedVariables false

namespace LLMem

/-- TypeScript strings, embedded as lists of characters. -/
abbrev Str := List Char

/-- Shorthand to write embedded strings from Lean string literals. -/
def str (s : String) : Str := s.data

/-- `String.prototype.toLowerCase`, character by character. -/
def lowerStr (s : Str) : Str := s.map Char.toLower

/-- Whether `pat` occurs at the start of `s` (helper for `includesStr`). -/
def startsWithStr : Str → Str → Bool
  | [], _ => true
  | _ :: _, [] => false
  | p :: ps, c :: cs => p == c && startsWithStr ps cs

/-- `String.prototype.includes`: `pat` occurs as a contiguous substring of `s`.
The haystack is the second argument, mirroring `s.includes(pat)` as
`includesStr pat s`… we instead fix the order `includesStr s pat`
(haystack first) throughout. -/
def includesStr : Str → Str → Bool
  | s, pat =>
    match s with
    | [] => pat.isEmpty
    | _ :: rest => startsWithStr pat s || includesStr rest pat

/-- `String.prototype.split(/\s+/)`: fields separated by maximal runs of
whitespace.  As in JavaScript, a leading or trailing separator produces
an empty field, and the empty string splits to `[""]`.  `some acc`
means we are inside a field whose characters (reversed) are `acc`;
`none` means we are consuming a whitespace run whose field has already
been emitted. -/
def splitWsAux : Str → Option Str → List Str
  | [], some acc => [acc.reverse]
  | [], none => [[]]
  | c :: rest, some acc =>
      if c.isWhitespace then acc.reverse :: splitWsAux rest none
      else splitWsAux rest (some (c :: acc))
  | c :: rest, none =>
      if c.isWhitespace then splitWsAux rest none
      else splitWsAux rest (some [c])

/-- `query.split(/\s+/)` as used by the text search. -/
def splitWs (s : Str) : List Str := splitWsAux s (some [])

/-! ### Association maps

`mget`/`mset` model a JavaScript `Map<string, β>`: `set` updates an
existing key in place (keeping its position) and appends a new key at
the end; `values()` iterates in that order. -/

/-- `Map.prototype.get` on an association list. -/
def mget {β : Type} : List (Str × β) → Str → Option β
  | [], _ => none
  | (k', v) :: rest, k => if k' = k then some v else mget rest k

/-- `Map.prototype.set` on an association list: update in place or append. -/
def mset {β : Type} : List (Str × β) → Str → β → List (Str × β)
  | [], k, v => [(k, v)]
  | (k', v') :: rest, k, v =>
    if k' = k then (k, v) :: rest else (k', v') :: mset rest k v

/-- The keys of an association list, in order. -/
abbrev mkeys {β : Type} (m : List (Str × β)) : List Str := m.map Prod.fst

@[simp] theorem mget_nil {β : Type} (k : Str) : mget ([] : List (Str × β)) k = none := rfl

theorem mget_mset_self {β : Type} (m : List (Str × β)) (k : Str) (v : β) :
    mget (mset m k v) k = some v := by
  induction m with
  | nil => simp [mset, mget]
  | cons p rest ih =>
      obtain ⟨k', v'⟩ := p
      by_cases h : k' = k
      · simp [mset, h, mget]
      · simp [mset, h, mget, ih]

theorem mget_mset_ne {β : Type} (m : List (Str × β)) (k k' : Str) (v : β)
    (h : k' ≠ k) : mget (mset m k v) k' = mget m k' := by
  have h' : k ≠ k' := Ne.symm h
  induction m with
  | nil => simp [mset, mget, h']
  | cons p rest ih =>
      obtain ⟨k₀, v₀⟩ := p
      by_cases h₀ : k₀ = k
      · subst h₀
        simp [mset, mget, h']
      · by_cases h₁ : k₀ = k'
        · subst h₁
          simp [mset, h₀, mget]
        · simp [mset, h₀, mget, h₁, ih]

theorem mem_mkeys_mset {β : Type} (m : List (Str × β)) (k a : Str) (v : β) :
    a ∈ mkeys (mset m k v) ↔ a = k ∨ a ∈ mkeys m := by
  induction m with
  | nil => simp [mset]
  | cons p rest ih =>
      obtain ⟨k₀, v₀⟩ := p
      by_cases h₀ : k₀ = k
      · subst h₀
        simp only [mset, eq_self_iff_true, if_true, mkeys, List.map_cons, List.mem_cons]
        tauto
      · simp only [mset, if_neg h₀, mkeys, List.map_cons, List.mem_cons]
        constructor
        · intro hh
          rcases hh with hh | hh
          · exact Or.inr (Or.inl hh)
          · rcases ih.mp hh with hh' | hh'
            · exact Or.inl hh'
            · exact Or.inr (Or.inr hh')
        · intro hh
          rcases hh with hh | hh | hh
          · exact Or.inr (ih.mpr (Or.inl hh))
          · exact Or.inl hh
          · exact Or.inr (ih.mpr (Or.inr hh))

theorem mkeys_nodup_mset {β : Type} (m : List (Str × β)) (k : Str) (v : β)
    (h : (mkeys m).Nodup) : (mkeys (mset m k v)).Nodup := by
  induction m with
  | nil => simp [mset]
  | cons p rest ih =>
      obtain ⟨k₀, v₀⟩ := p
      simp only [mkeys, List.map_cons, List.nodup_cons] at h
      by_cases h₀ : k₀ = k
      · subst h₀
        simp only [mset, eq_self_iff_true, if_true, mkeys, List.map_cons, List.nodup_cons]
        exact h
      · simp only [mset, if_neg h₀, mkeys, List.map_cons, List.nodup_cons]
        refine ⟨?_, ih h.2⟩
        intro hmem
        rcases (mem_mkeys_mset rest k k₀ v).mp hmem with hh | hh
        · exact h₀ hh
        · exact h.1 hh

theorem mget_eq_some_of_mem {β : Type} (m : List (Str × β)) (k : Str) (v : β)
    (hnd : (mkeys m).Nodup) (hmem : (k, v) ∈ m) : mget m k = some v := by
  induction m with
  | nil => cases hmem
  | cons p rest ih =>
      obtain ⟨k₀, v₀⟩ := p
      simp only [mkeys, List.map_cons, List.nodup_cons] at hnd
      rcases List.mem_cons.mp hmem with h | h
      · injection h with h1 h2
        subst h1
        subst h2
        simp [mget]
      · have hk : ¬ k₀ = k := by
          rintro rfl
          exact hnd.1 (List.mem_map_of_mem Prod.fst h)
        simp only [mget, if_neg hk]
        exact ih hnd.2 h

theorem mem_of_mget_eq_some {β : Type} (m : List (Str × β)) (k : Str) (v : β)
    (h : mget m k = some v) : (k, v) ∈ m := by
  induction m with
  | nil => simp [mget] at h
  | cons p rest ih =>
      obtain ⟨k₀, v₀⟩ := p
      by_cases hk : k₀ = k
      · subst hk
        have hv : some v₀ = some v := by simpa [mget] using h
        injection hv with hv
        subst hv
        exact List.mem_cons_self _ _
      · simp only [mget, if_neg hk] at h
        exact List.mem_cons_of_mem _ (ih h)

theorem mem_values_of_mget {β : Type} (m : List (Str × β)) (k : Str) (v : β)
    (h : mget m k = some v) : v ∈ m.map Prod.snd :=
  List.mem_map_of_mem Prod.snd (mem_of_mget_eq_some m k v h)

/-! ### Sorting

`Array.prototype.sort((a, b) => key(b) - key(a))` sorts in descending
key order.  We embed it as insertion sort; the claims proved about the
output (it is a permutation of the input, sorted descending) hold of
any correct implementation of the JavaScript comparator contract. -/

/-- Insert `x` into `l` keeping descending `key` order. -/
def insertDescBy {α β : Type} [LinearOrder β] (key : α → β) (x : α) : List α → List α
  | [] => [x]
  | y :: ys => if key y < key x then x :: y :: ys else y :: insertDescBy key x ys

/-- Sort a list in descending `key` order (JS `sort` with comparator
`(a, b) => key(b) - key(a)`). -/
def sortDescBy {α β : Type} [LinearOrder β] (key : α → β) : List α → List α
  | [] => []
  | x :: xs => insertDescBy key x (sortDescBy key xs)

theorem perm_insertDescBy {α β : Type} [LinearOrder β] (key : α → β) (x : α)
    (l : List α) : List.Perm (insertDescBy key x l) (x :: l) := by
  induction l with
  | nil => exact List.Perm.refl _
  | cons y ys ih =>
      by_cases h : key y < key x
      · simp only [insertDescBy, if_pos h]
        exact List.Perm.refl _
      · simp only [insertDescBy, if_neg h]
        exact (ih.cons y).trans (List.Perm.swap x y ys)

theorem perm_sortDescBy {α β : Type} [LinearOrder β] (key : α → β) (l : List α) :
    List.Perm (sortDescBy key l) l := by
  induction l with
  | nil => exact List.Perm.refl _
  | cons x xs ih =>
      exact (perm_insertDescBy key x (sortDescBy key xs)).trans (ih.cons x)

theorem sorted_insertDescBy {α β : Type} [LinearOrder β] (key : α → β) (x : α)
    (l : List α) (h : l.Pairwise (fun a b => key b ≤ key a)) :
    (insertDescBy key x l).Pairwise (fun a b => key b ≤ key a) := by
  induction l with
  | nil => simp [insertDescBy]
  | cons y ys ih =>
      rcases List.pairwise_cons.mp h with ⟨hy, hys⟩
      by_cases hlt : key y < key x
      · simp only [insertDescBy, if_pos hlt]
        refine List.pairwise_cons.mpr ⟨?_, h⟩
        intro b hb
        rcases List.mem_cons.mp hb with rfl | hb
        · exact le_of_lt hlt
        · exact le_trans (hy b hb) (le_of_lt hlt)
      · simp only [insertDescBy, if_neg hlt]
        refine List.pairwise_cons.mpr ⟨?_, ih hys⟩
        intro b hb
        have hb' := (perm_insertDescBy key x ys).mem_iff.mp hb
        rcases List.mem_cons.mp hb' with rfl | hb'
        · exact le_of_not_lt hlt
        · exact hy b hb'

theorem sorted_sortDescBy {α β : Type} [LinearOrder β] (key : α → β) (l : List α) :
    (sortDescBy key l).Pairwise (fun a b => key b ≤ key a) := by
  induction l with
  | nil => simp [sortDescBy]
  | cons x xs ih => exact sorted_insertDescBy key x _ ih

/-! ## Data model

`src/models/context.ts`: `ContextMetadataSchema` / `ContextSchema`.
The `expires` field of the zod schema is `datetime().nullable().optional()`,
so its JavaScript value is a string, `null`, or absent; we embed it as
`Option (Option Str)` (`none` = absent, `some none` = `null`). -/

structure ContextMetadata where
  id : Str
  title : Str
  type : Str
  tags : List Str
  created : Str
  updated : Str
  expires : Option (Option Str)
  relations : List Str
deriving DecidableEq, Repr

structure Context where
  metadata : ContextMetadata
  content : Str
  filepath : Option Str
deriving DecidableEq, Repr

/-! ## Hybrid search (`src/storage/hybrid-search.ts`) -/

inductive MatchType where
  | exact
  | semantic
  | hybrid
deriving DecidableEq, Repr

structure SearchResult where
  context : Context
  score : ℚ
  matchType : MatchType
deriving DecidableEq, Repr

/-- `VectorSearchResult` of `src/storage/vector-store.ts`. -/
structure VectorSearchResult where
  context : Context
  score : ℚ
deriving DecidableEq, Repr

/-- The entity id a vector hit is keyed by in `combineResults`. -/
def vecId (r : VectorSearchResult) : Str := r.context.metadata.id

/-- The entity id a text hit is keyed by in `combineResults`. -/
def resId (r : SearchResult) : Str := r.context.metadata.id

/-- `Array.prototype.join(' ')` for the tag list. -/
def joinSpace : List Str → Str
  | [] => []
  | [t] => t
  | t :: rest => t ++ [' '] ++ joinSpace rest

/-- `titleMatch` of the `performTextSearch` loop:
`context.metadata.title.toLowerCase().includes(queryLower)`. -/
def titleMatchOf (query : Str) (c : Context) : Bool :=
  includesStr (lowerStr c.metadata.title) (lowerStr query)

/-- `contentMatch`: `context.content.toLowerCase().includes(queryLower)`. -/
def contentMatchOf (query : Str) (c : Context) : Bool :=
  includesStr (lowerStr c.content) (lowerStr query)

/-- `tagMatch`: `context.metadata.tags.some(tag => tag.toLowerCase().includes(queryLower))`. -/
def tagMatchOf (query : Str) (c : Context) : Bool :=
  c.metadata.tags.any fun tag => includesStr (lowerStr tag) (lowerStr query)

/-- `queryWords`: `query.toLowerCase().split(/\s+/)`. -/
def queryWordsOf (query : Str) : List Str := splitWs (lowerStr query)

/-- `contextText`: lower-cased `title + ' ' + content + ' ' + tags.join(' ')`. -/
def contextTextOf (c : Context) : Str :=
  lowerStr (c.metadata.title ++ [' '] ++ c.content ++ [' '] ++ joinSpace c.metadata.tags)

/-- `wordMatches`: query words of length `> 2` found in `contextText`. -/
def wordMatchesOf (query : Str) (c : Context) : List Str :=
  (queryWordsOf query).filter fun word =>
    decide (word.length > 2) && includesStr (contextTextOf c) word

/-- One iteration of the `performTextSearch` loop body
(`hybrid-search.ts` lines 65–117): the four scoring signals computed in
order, and the pushed result if any signal fired.  The mutable
`score`/`hasMatch` accumulation is embedded as a `let` chain. -/
def textSearchOne (query : Str) (context : Context) : Option SearchResult :=
  let score1 : ℚ := if titleMatchOf query context then 0 + 1.0 else 0
  let score2 := if contentMatchOf query context then score1 + 0.8 else score1
  let score3 := if tagMatchOf query context then score2 + 0.6 else score2
  let score4 := if (wordMatchesOf query context).length > 0 then
      score3 + (((wordMatchesOf query context).length : ℚ) /
        ((queryWordsOf query).length : ℚ)) * 0.4
    else score3
  let hasMatch := titleMatchOf query context || contentMatchOf query context ||
    tagMatchOf query context || decide ((wordMatchesOf query context).length > 0)
  if hasMatch then some ⟨context, score4, MatchType.exact⟩ else none

/-- `HybridSearch.performTextSearch`: score every context, keeping the
ones with at least one matching signal, in corpus order. -/
def performTextSearch (query : Str) (allContexts : List Context) : List SearchResult :=
  allContexts.filterMap (textSearchOne query)

/-- The entry seeded into the combined map for a vector (semantic) hit. -/
def mkSemanticEntry (semanticWeight : ℚ) (r : VectorSearchResult) : SearchResult :=
  ⟨r.context, r.score * semanticWeight, MatchType.semantic⟩

/-- `combineResults`, first loop: seed the map from the vector hits. -/
def seedSemantic (semanticWeight : ℚ) (vectorResults : List VectorSearchResult) :
    List (Str × SearchResult) :=
  vectorResults.foldl (fun m r => mset m (vecId r) (mkSemanticEntry semanticWeight r)) []

/-- The value stored for a text hit in `combineResults`'s second loop,
as a function of the entry already present under the same id. -/
def combinedValue (exactMatchBoost : ℚ) (existing : Option SearchResult)
    (r : SearchResult) : SearchResult :=
  match existing with
  | some ex => ⟨r.context, ex.score + r.score * exactMatchBoost, MatchType.hybrid⟩
  | none => ⟨r.context, r.score * exactMatchBoost, MatchType.exact⟩

/-- `combineResults`, second loop body: boost an existing entry into a
hybrid one, or insert a text-only (`exact`) entry. -/
def combineStep (exactMatchBoost : ℚ) (m : List (Str × SearchResult))
    (r : SearchResult) : List (Str × SearchResult) :=
  mset m (resId r) (combinedValue exactMatchBoost (mget m (resId r)) r)

/-- `HybridSearch.combineResults` (`hybrid-search.ts` lines 122–164). -/
def combineResults (vectorResults : List VectorSearchResult)
    (textResults : List SearchResult) (semanticWeight exactMatchBoost : ℚ) :
    List SearchResult :=
  (textResults.foldl (combineStep exactMatchBoost) (seedSemantic semanticWeight vectorResults)).map
    Prod.snd

/-- Default option values of `HybridSearch.search`. -/
def defaultLimit : Nat := 10

def defaultSemanticWeight : ℚ := 0.7

def defaultExactMatchBoost : ℚ := 0.3

/-- `HybridSearch.search`.  The semantic channel
(`vectorStore.searchSimilar`) is an external asynchronous call; its
outcome is passed in as an `Except`: `.ok` carries the vector hits, and
`.error` is a rejection, which the `catch` block turns into the
text-only fallback `performTextSearch(...).slice(0, limit)`.  All other
work inside the `try` block is pure, so the embedding is total: the
function never throws. -/
def hybridSearch (vectorOutcome : Except Unit (List VectorSearchResult))
    (query : Str) (allContexts : List Context) (limit : Nat)
    (semanticWeight exactMatchBoost : ℚ) : List SearchResult :=
  match vectorOutcome with
  | Except.ok vectorResults =>
      let textResults := performTextSearch query allContexts
      let hybridResults :=
        combineResults vectorResults textResults semanticWeight exactMatchBoost
      (sortDescBy SearchResult.score hybridResults).take limit
  | Except.error _ =>
      (performTextSearch query allContexts).take limit

/-! ## The Relevance Scorer claim (spec §4.2)

`specTextScore`/`specTextIncluded` restate the spec's scoring rule as a
closed-form sum, to be compared with the loop embedded in
`textSearchOne`.  Substring matching in the code is on lower-cased
strings, which is what the spec's "substring match" refers to. -/

/-- The spec's formula: `+1.0` for a title substring match, `+0.8` for a
content substring match, `+0.6` for a tag substring match, plus
`coverage × 0.4` where `coverage` is (tokens of length > 2 found in
title+content+tags) / (total tokens). -/
def specTextScore (query : Str) (c : Context) : ℚ :=
  (if titleMatchOf query c then (1.0 : ℚ) else 0) +
  (if contentMatchOf query c then (0.8 : ℚ) else 0) +
  (if tagMatchOf query c then (0.6 : ℚ) else 0) +
  ((wordMatchesOf query c).length : ℚ) / ((queryWordsOf query).length : ℚ) * 0.4

/-- The spec's inclusion rule: the entity is kept iff at least one
signal fired. -/
def specTextIncluded (query : Str) (c : Context) : Bool :=
  titleMatchOf query c || contentMatchOf query c || tagMatchOf query c ||
    decide ((wordMatchesOf query c).length > 0)

theorem textSearchOne_eq_spec (query : Str) (c : Context) :
    textSearchOne query c =
      if specTextIncluded query c then
        some ⟨c, specTextScore query c, MatchType.exact⟩
      else none := by
  unfold textSearchOne specTextIncluded specTextScore
  by_cases h1 : titleMatchOf query c <;>
    by_cases h2 : contentMatchOf query c <;>
      by_cases h3 : tagMatchOf query c <;>
        by_cases h4 : (wordMatchesOf query c).length > 0
  all_goals
    try (have h0 : (wordMatchesOf query c).length = 0 := by omega)
  all_goals simp [h1, h2, h3, h4, *]

/-- C2.  Relevance scorer: the text channel returns exactly the corpus
entries with at least one signal, each scored by the spec's sum
formula, in corpus order. -/
theorem relevance_scorer_spec (query : Str) (allContexts : List Context) :
    performTextSearch query allContexts =
      allContexts.filterMap fun c =>
        if specTextIncluded query c then
          some ⟨c, specTextScore query c, MatchType.exact⟩
        else none := by
  unfold performTextSearch
  exact List.filterMap_congr fun c _ => textSearchOne_eq_spec query c

/-! ## Fusion lemmas for `combineResults`

The combined map is built by two `foldl`s over `mset`; these lemmas
characterise `mget` of the final map when the ids within each channel
are pairwise distinct (each channel of the real engine emits at most
one hit per entity). -/

theorem mget_seedSemantic_not_mem (w : ℚ) (vs : List VectorSearchResult)
    (m : List (Str × SearchResult)) (k : Str) (hk : k ∉ vs.map vecId) :
    mget (vs.foldl (fun m r => mset m (vecId r) (mkSemanticEntry w r)) m) k = mget m k := by
  induction vs generalizing m with
  | nil => rfl
  | cons v rest ih =>
      simp only [List.map_cons, List.mem_cons, not_or] at hk
      simp only [List.foldl_cons]
      rw [ih _ hk.2, mget_mset_ne _ _ _ _ hk.1]

theorem mget_seedSemantic_mem (w : ℚ) (vs : List VectorSearchResult)
    (m : List (Str × SearchResult)) (v : VectorSearchResult)
    (hnd : (vs.map vecId).Nodup) (hv : v ∈ vs) :
    mget (vs.foldl (fun m r => mset m (vecId r) (mkSemanticEntry w r)) m) (vecId v) =
      some (mkSemanticEntry w v) := by
  induction vs generalizing m with
  | nil => cases hv
  | cons v₀ rest ih =>
      simp only [List.map_cons, List.nodup_cons] at hnd
      rcases List.mem_cons.mp hv with rfl | hv'
      · simp only [List.foldl_cons]
        rw [mget_seedSemantic_not_mem w rest _ _ hnd.1]
        exact mget_mset_self _ _ _
      · simp only [List.foldl_cons]
        exact ih _ hnd.2 hv'

theorem mget_addText_not_mem (b : ℚ) (ts : List SearchResult)
    (m : List (Str × SearchResult)) (k : Str) (hk : k ∉ ts.map resId) :
    mget (ts.foldl (combineStep b) m) k = mget m k := by
  induction ts generalizing m with
  | nil => rfl
  | cons t rest ih =>
      simp only [List.map_cons, List.mem_cons, not_or] at hk
      simp only [List.foldl_cons]
      rw [ih _ hk.2]
      exact mget_mset_ne _ _ _ _ hk.1

theorem mget_addText_mem (b : ℚ) (ts : List SearchResult)
    (m : List (Str × SearchResult)) (t : SearchResult)
    (hnd : (ts.map resId).Nodup) (ht : t ∈ ts) :
    mget (ts.foldl (combineStep b) m) (resId t) =
      some (combinedValue b (mget m (resId t)) t) := by
  induction ts generalizing m with
  | nil => cases ht
  | cons t₀ rest ih =>
      simp only [List.map_cons, List.nodup_cons] at hnd
      rcases List.mem_cons.mp ht with rfl | ht'
      · simp only [List.foldl_cons]
        rw [mget_addText_not_mem b rest _ _ hnd.1]
        simp only [combineStep]
        exact mget_mset_self _ _ _
      · simp only [List.foldl_cons]
        rw [ih _ hnd.2 ht']
        have hne : resId t ≠ resId t₀ := by
          intro h
          exact hnd.1 (h ▸ List.mem_map_of_mem resId ht')
        simp only [combineStep]
        rw [mget_mset_ne _ _ _ _ hne]

theorem keysNodup_seedSemantic (w : ℚ) (vs : List VectorSearchResult)
    (m : List (Str × SearchResult)) (h : (mkeys m).Nodup) :
    (mkeys (vs.foldl (fun m r => mset m (vecId r) (mkSemanticEntry w r)) m)).Nodup := by
  induction vs generalizing m with
  | nil => exact h
  | cons v rest ih =>
      simp only [List.foldl_cons]
      exact ih _ (mkeys_nodup_mset _ _ _ h)

theorem keysNodup_addText (b : ℚ) (ts : List SearchResult)
    (m : List (Str × SearchResult)) (h : (mkeys m).Nodup) :
    (mkeys (ts.foldl (combineStep b) m)).Nodup := by
  induction ts generalizing m with
  | nil => exact h
  | cons t rest ih =>
      simp only [List.foldl_cons, combineStep]
      exact ih _ (mkeys_nodup_mset _ _ _ h)

theorem mem_combineResults_of_mget (vs : List VectorSearchResult)
    (ts : List SearchResult) (w b : ℚ) (k : Str) (r : SearchResult)
    (h : mget (ts.foldl (combineStep b) (seedSemantic w vs)) k = some r) :
    r ∈ combineResults vs ts w b := by
  unfold combineResults
  exact mem_values_of_mget _ _ _ h

/-- An id hit by both channels yields a hybrid entry with the combined
score. -/
theorem mem_combineResults_hybrid (vs : List VectorSearchResult)
    (ts : List SearchResult) (w b : ℚ) (v : VectorSearchResult) (t : SearchResult)
    (hv : (vs.map vecId).Nodup) (ht : (ts.map resId).Nodup)
    (hvm : v ∈ vs) (htm : t ∈ ts) (hid : vecId v = resId t) :
    (⟨t.context, v.score * w + t.score * b, MatchType.hybrid⟩ : SearchResult) ∈
      combineResults vs ts w b := by
  have h1 : mget (seedSemantic w vs) (resId t) = some (mkSemanticEntry w v) := by
    rw [← hid]
    exact mget_seedSemantic_mem w vs [] v hv hvm
  have h2 := mget_addText_mem b ts (seedSemantic w vs) t ht htm
  rw [h1] at h2
  exact mem_combineResults_of_mget vs ts w b (resId t) _ h2

/-- An id hit only by the semantic channel keeps its seeded entry. -/
theorem mem_combineResults_semantic (vs : List VectorSearchResult)
    (ts : List SearchResult) (w b : ℚ) (v : VectorSearchResult)
    (hv : (vs.map vecId).Nodup) (hvm : v ∈ vs) (hnot : vecId v ∉ ts.map resId) :
    (⟨v.context, v.score * w, MatchType.semantic⟩ : SearchResult) ∈
      combineResults vs ts w b := by
  have h1 : mget (seedSemantic w vs) (vecId v) = some (mkSemanticEntry w v) :=
    mget_seedSemantic_mem w vs [] v hv hvm
  have h2 := mget_addText_not_mem b ts (seedSemantic w vs) (vecId v) hnot
  rw [h1] at h2
  exact mem_combineResults_of_mget vs ts w b (vecId v) _ h2

/-- An id hit only by the text channel gets a fresh `exact` entry. -/
theorem mem_combineResults_exact (vs : List VectorSearchResult)
    (ts : List SearchResult) (w b : ℚ) (t : SearchResult)
    (ht : (ts.map resId).Nodup) (htm : t ∈ ts) (hnot : resId t ∉ vs.map vecId) :
    (⟨t.context, t.score * b, MatchType.exact⟩ : SearchResult) ∈
      combineResults vs ts w b := by
  have h1 : mget (seedSemantic w vs) (resId t) = none := by
    have := mget_seedSemantic_not_mem w vs [] (resId t) hnot
    simpa [seedSemantic] using this
  have h2 := mget_addText_mem b ts (seedSemantic w vs) t ht htm
  rw [h1] at h2
  exact mem_combineResults_of_mget vs ts w b (resId t) _ h2

/-- Everything the text channel emits is tagged `exact`. -/
theorem matchType_performTextSearch (query : Str) (allContexts : List Context)
    (r : SearchResult) (h : r ∈ performTextSearch query allContexts) :
    r.matchType = MatchType.exact := by
  rw [relevance_scorer_spec] at h
  rcases List.mem_filterMap.mp h with ⟨c, hc, he⟩
  by_cases hinc : specTextIncluded query c
  · rw [if_pos hinc] at he
    injection he with he
    rw [← he]
  · rw [if_neg hinc] at he
    cases he

/-! ## Sample entities used in concrete witnesses and counterexamples -/

def metaA : ContextMetadata :=
  ⟨str "550e8400-e29b-41d4-a716-446655440000", str "x", str "knowledge", [],
    str "2024-01-01T00:00:00.000Z", str "2024-01-01T00:00:00.000Z", none, []⟩

/-- Content mentions "alpha" but the title does not: text score 1.2. -/
def ctxA : Context := ⟨metaA, str "alpha", none⟩

def metaB : ContextMetadata :=
  ⟨str "650e8400-e29b-41d4-a716-446655440000", str "alpha", str "knowledge", [],
    str "2024-01-01T00:00:00.000Z", str "2024-01-01T00:00:00.000Z", none, []⟩

/-- Title and content both mention "alpha": text score 2.2. -/
def ctxB : Context := ⟨metaB, str "alpha", none⟩

/-- C1.  Hybrid fusion: an id present in both channels scores
`semantic*semanticWeight + text*exactMatchBoost` with `matchType`
hybrid, a semantic-only id scores `semantic*semanticWeight` with
`matchType` semantic, a text-only id scores `text*exactMatchBoost` with
`matchType` exact; the search output is sorted descending by score and
has at most `limit` entries, each drawn from the fused map.  The
distinct-ids hypotheses reflect that each channel emits at most one hit
per entity. -/
theorem claim_hybrid_fusion
    (vs : List VectorSearchResult) (ts : List SearchResult)
    (w b : ℚ) (query : Str) (allContexts : List Context) (limit : Nat)
    (hv : (vs.map vecId).Nodup) (ht : (ts.map resId).Nodup) :
    (∀ v ∈ vs, ∀ t ∈ ts, vecId v = resId t →
        (⟨t.context, v.score * w + t.score * b, MatchType.hybrid⟩ : SearchResult) ∈
          combineResults vs ts w b)
  ∧ (∀ v ∈ vs, vecId v ∉ ts.map resId →
        (⟨v.context, v.score * w, MatchType.semantic⟩ : SearchResult) ∈
          combineResults vs ts w b)
  ∧ (∀ t ∈ ts, resId t ∉ vs.map vecId →
        (⟨t.context, t.score * b, MatchType.exact⟩ : SearchResult) ∈
          combineResults vs ts w b)
  ∧ (hybridSearch (Except.ok vs) query allContexts limit w b).length ≤ limit
  ∧ (hybridSearch (Except.ok vs) query allContexts limit w b).Pairwise
      (fun r₁ r₂ => r₂.score ≤ r₁.score)
  ∧ ∀ r ∈ hybridSearch (Except.ok vs) query allContexts limit w b,
      r ∈ combineResults vs (performTextSearch query allContexts) w b := by
  refine ⟨?_, ?_, ?_, ?_, ?_, ?_⟩
  · intro v hvm t htm hid
    exact mem_combineResults_hybrid vs ts w b v t hv ht hvm htm hid
  · intro v hvm hnot
    exact mem_combineResults_semantic vs ts w b v hv hvm hnot
  · intro t htm hnot
    exact mem_combineResults_exact vs ts w b t ht htm hnot
  · exact List.length_take_le limit _
  · have hs := sorted_sortDescBy SearchResult.score
      (combineResults vs (performTextSearch query allContexts) w b)
    simpa [hybridSearch] using hs.sublist (List.take_sublist limit _)
  · intro r hr
    simp only [hybridSearch] at hr
    have hr' := List.mem_of_mem_take hr
    exact (perm_sortDescBy SearchResult.score _).mem_iff.mp hr'

/-- Concrete instance of `claim_hybrid_fusion`: a same-id hit on both
channels produces the hybrid-scored entry. -/
theorem claim_hybrid_fusion_witness :
    (⟨ctxA, (1 : ℚ) * (7/10) + 2 * (3/10), MatchType.hybrid⟩ : SearchResult) ∈
      combineResults [⟨ctxA, 1⟩] [⟨ctxA, 2, MatchType.exact⟩] (7/10) (3/10) := by
  have h := claim_hybrid_fusion [⟨ctxA, 1⟩] [⟨ctxA, 2, MatchType.exact⟩]
    (7/10) (3/10) (str "q") [] 10 (by simp) (by simp)
  exact h.1 ⟨ctxA, 1⟩ (by simp) ⟨ctxA, 2, MatchType.exact⟩ (by simp) rfl

/-- C3.  If the semantic channel rejects, `search` returns the
text-channel results alone (all tagged `exact`); the function is total,
so no exception reaches the caller. -/
theorem claim_semantic_failure_fallback (e : Unit) (query : Str)
    (allContexts : List Context) (limit : Nat) (w b : ℚ) :
    hybridSearch (Except.error e) query allContexts limit w b =
      (performTextSearch query allContexts).take limit
  ∧ (hybridSearch (Except.error e) query allContexts limit w b).all
      (fun r => decide (r.matchType = MatchType.exact)) = true := by
  refine ⟨rfl, ?_⟩
  rw [List.all_eq_true]
  intro r hr
  simp only [hybridSearch] at hr
  have hr' := List.mem_of_mem_take hr
  exact decide_eq_true (matchType_performTextSearch query allContexts r hr')

/-- C10.  The semantic-failure fallback truncates the text results in
corpus order without sorting; concretely, with `limit = 1` over
`[ctxA, ctxB]` the single returned hit (score 1.2) is outscored by the
omitted later hit `ctxB` (score 2.2). -/
theorem claim_fallback_unsorted_truncation :
    (∀ (e : Unit) (query : Str) (allContexts : List Context) (limit : Nat) (w b : ℚ),
      hybridSearch (Except.error e) query allContexts limit w b =
        (performTextSearch query allContexts).take limit)
  ∧ hybridSearch (Except.error ()) (str "alpha") [ctxA, ctxB] 1 (7/10) (3/10) =
      [⟨ctxA, 6/5, MatchType.exact⟩]
  ∧ (⟨ctxB, 11/5, MatchType.exact⟩ : SearchResult) ∈
      performTextSearch (str "alpha") [ctxA, ctxB]
  ∧ ((6 : ℚ)/5 < 11/5)
  ∧ (⟨ctxB, 11/5, MatchType.exact⟩ : SearchResult) ∉
      hybridSearch (Except.error ()) (str "alpha") [ctxA, ctxB] 1 (7/10) (3/10) := by
  have h1 : titleMatchOf (str "alpha") ctxA = false := by decide
  have h2 : contentMatchOf (str "alpha") ctxA = true := by decide
  have h3 : tagMatchOf (str "alpha") ctxA = false := by decide
  have h4 : (wordMatchesOf (str "alpha") ctxA).length = 1 := by decide
  have h5 : (queryWordsOf (str "alpha")).length = 1 := by decide
  have g1 : titleMatchOf (str "alpha") ctxB = true := by decide
  have g2 : contentMatchOf (str "alpha") ctxB = true := by decide
  have g3 : tagMatchOf (str "alpha") ctxB = false := by decide
  have g4 : (wordMatchesOf (str "alpha") ctxB).length = 1 := by decide
  have hA : textSearchOne (str "alpha") ctxA = some ⟨ctxA, 6/5, MatchType.exact⟩ := by
    rw [textSearchOne_eq_spec]
    simp only [specTextIncluded, specTextScore, h1, h2, h3, h4, h5]
    norm_num
  have hB : textSearchOne (str "alpha") ctxB = some ⟨ctxB, 11/5, MatchType.exact⟩ := by
    rw [textSearchOne_eq_spec]
    simp only [specTextIncluded, specTextScore, g1, g2, g3, g4, h5]
    norm_num
  have hPTS : performTextSearch (str "alpha") [ctxA, ctxB] =
      [⟨ctxA, 6/5, MatchType.exact⟩, ⟨ctxB, 11/5, MatchType.exact⟩] := by
    simp [performTextSearch, hA, hB]
  have hNe : ctxB ≠ ctxA := by decide
  refine ⟨fun e query allContexts limit w b => rfl, ?_, ?_, by norm_num, ?_⟩
  · simp only [hybridSearch, hPTS]
    rfl
  · rw [hPTS]
    simp
  · simp only [hybridSearch, hPTS]
    intro hmem
    simp only [List.take, List.mem_singleton] at hmem
    exact hNe (congrArg SearchResult.context hmem)

/-! ## The markdown/frontmatter codec and the zod schema

`MarkdownParser.parse`/`stringify` (`src/storage/markdown-parser.ts`)
sit on top of two external collaborators, modelled here:

* gray-matter, which the spec (§1) treats as a pure
  serialize/deserialize boundary.  A persisted file is embedded as a
  `MarkdownDoc` (the frontmatter data plus the body);
  `matter.stringify` terminates the body with a newline and parsing
  recovers data and body unchanged.
* `new Date(s).toISOString()`, the timestamp normalisation applied by
  `stringify`; it is kept abstract as a `dateNorm : Str → Str`
  parameter.

The zod schema `ContextMetadataSchema` (`src/models/context.ts`) is
embedded field by field, including its `uuid()` and `datetime()` string
validators. -/

/-- A hexadecimal digit (any case), as in zod's uuid regex. -/
def isHexDigit (c : Char) : Bool :=
  c.isDigit || ('a' ≤ c && c ≤ 'f') || ('A' ≤ c && c ≤ 'F')

/-- Split on every occurrence of a single character (no run merging). -/
def splitOnChar (sep : Char) : Str → List Str
  | [] => [[]]
  | c :: rest =>
      if c = sep then [] :: splitOnChar sep rest
      else
        match splitOnChar sep rest with
        | [] => [[c]]
        | t :: ts => (c :: t) :: ts

/-- Models `z.string().uuid()`: five dash-separated hex groups of
lengths 8-4-4-4-12. -/
def isUuid (s : Str) : Bool :=
  match splitOnChar '-' s with
  | [a, b, c, d, e] =>
      decide (a.length = 8) && decide (b.length = 4) && decide (c.length = 4) &&
      decide (d.length = 4) && decide (e.length = 12) &&
      (a ++ b ++ c ++ d ++ e).all isHexDigit
  | _ => false

/-- Digits followed by a final `Z` (tail of a fractional-seconds part). -/
def digitsThenZ : Str → Bool
  | ['Z'] => true
  | c :: rest => c.isDigit && digitsThenZ rest
  | [] => false

/-- Models `z.string().datetime()` (UTC only, optional fractional
seconds): `\d{4}-\d{2}-\d{2}T\d{2}:\d{2}:\d{2}(\.\d+)?Z`. -/
def isZodDatetime : Str → Bool
  | y1 :: y2 :: y3 :: y4 :: '-' :: m1 :: m2 :: '-' :: d1 :: d2 :: 'T' ::
      h1 :: h2 :: ':' :: n1 :: n2 :: ':' :: s1 :: s2 :: rest =>
      ([y1, y2, y3, y4, m1, m2, d1, d2, h1, h2, n1, n2, s1, s2].all Char.isDigit) &&
      (match rest with
       | ['Z'] => true
       | '.' :: c :: more => c.isDigit && digitsThenZ (c :: more)
       | _ => false)
  | _ => false

instance {ε α : Type} [DecidableEq ε] [DecidableEq α] : DecidableEq (Except ε α) :=
  fun x y =>
    match x, y with
    | Except.ok a, Except.ok b =>
        if h : a = b then isTrue (by rw [h])
        else isFalse (by intro hh; injection hh with hh; exact h hh)
    | Except.error a, Except.error b =>
        if h : a = b then isTrue (by rw [h])
        else isFalse (by intro hh; injection hh with hh; exact h hh)
    | Except.ok _, Except.error _ => isFalse (by intro hh; cases hh)
    | Except.error _, Except.ok _ => isFalse (by intro hh; cases hh)

/-- The frontmatter object as it comes out of the YAML layer: each
schema field possibly absent; `expires` may also be explicitly `null`
(`some none`). -/
structure RawMetadata where
  id : Option Str
  title : Option Str
  type : Option Str
  tags : Option (List Str)
  created : Option Str
  updated : Option Str
  expires : Option (Option Str)
  relations : Option (List Str)
deriving DecidableEq, Repr

/-- A persisted markdown file at the gray-matter boundary: frontmatter
data plus body. -/
structure MarkdownDoc where
  data : RawMetadata
  body : Str
deriving DecidableEq, Repr

/-- `ContextMetadataSchema.parse`: required string fields, `uuid()` on
`id` and on every entry of `relations`, `datetime()` on
`created`/`updated`/`expires`, defaults `[]` for `tags` and
`relations`.  A failed check is a thrown `ZodError`. -/
def zodParseMetadata (d : RawMetadata) : Except Unit ContextMetadata :=
  match d.id, d.title, d.type, d.created, d.updated with
  | some id, some title, some ty, some created, some updated =>
      if isUuid id && isZodDatetime created && isZodDatetime updated &&
          (match d.expires with
           | some (some e) => isZodDatetime e
           | _ => true) &&
          (d.relations.getD []).all isUuid then
        Except.ok ⟨id, title, ty, d.tags.getD [], created, updated, d.expires,
          d.relations.getD []⟩
      else Except.error ()
  | _, _, _, _, _ => Except.error ()

/-- `String.prototype.trim`: strip whitespace from both ends (right
side first in this embedding). -/
def trimStr (s : Str) : Str :=
  ((s.reverse.dropWhile Char.isWhitespace).reverse).dropWhile Char.isWhitespace

/-- `MarkdownParser.parse`: split the document with gray-matter,
validate the data with the zod schema, trim the body, attach the given
filepath.  A zod failure is a thrown error (`Except.error`). -/
def parserParse (markdownContent : MarkdownDoc) (filepath : Option Str) :
    Except Unit Context :=
  match zodParseMetadata markdownContent.data with
  | Except.ok metadata => Except.ok ⟨metadata, trimStr markdownContent.body, filepath⟩
  | Except.error e => Except.error e

/-- The frontmatter object written by `MarkdownParser.stringify`:
every field present, `created`/`updated` passed through
`new Date(...).toISOString()` (the abstract `dateNorm`), and
`expires: metadata.expires ? ... : null` — absent or `null` both
become explicit `null` (`some none`). -/
def metadataToRaw (dateNorm : Str → Str) (m : ContextMetadata) : RawMetadata :=
  ⟨some m.id, some m.title, some m.type, some m.tags,
    some (dateNorm m.created), some (dateNorm m.updated),
    some (match m.expires with
          | some (some e) => some (dateNorm e)
          | _ => none),
    some m.relations⟩

/-- `MarkdownParser.stringify` through the gray-matter boundary:
frontmatter from the metadata, body terminated by a newline. -/
def parserStringify (dateNorm : Str → Str) (c : Context) : MarkdownDoc :=
  ⟨metadataToRaw dateNorm c.metadata, c.content ++ ['\n']⟩

theorem trimStr_append_newline (s : Str) : trimStr (s ++ ['\n']) = trimStr s := by
  unfold trimStr
  rw [List.reverse_append]
  rfl

/-- C8 counterexample.  Round-trip is not exact: `parse` trims the
body, so an entity whose content carries edge whitespace comes back
changed (and an absent `expires` comes back as an explicit `null`). -/
theorem claim_roundtrip_counterexample :
    parserParse (parserStringify (fun s => s) ⟨metaA, str " x ", none⟩) none =
      Except.ok ⟨⟨str "550e8400-e29b-41d4-a716-446655440000", str "x",
        str "knowledge", [], str "2024-01-01T00:00:00.000Z",
        str "2024-01-01T00:00:00.000Z", some none, []⟩, str "x", none⟩
  ∧ str "x" ≠ str " x " := by
  exact ⟨by decide, by decide⟩

/-- C8 (amended).  `parse(stringify(e))` reproduces metadata and
content exactly for entities whose content is trim-stable, whose
timestamps are fixed points of the date normalisation and pass the
schema's `datetime()` check, whose id and relations pass `uuid()`, and
whose `expires` is explicitly `null` or an explicit date (an absent
`expires` is rewritten to `null` by `stringify`). -/
theorem claim_roundtrip_amended (dateNorm : Str → Str) (e : Context)
    (hcontent : trimStr e.content = e.content)
    (hcreated : dateNorm e.metadata.created = e.metadata.created)
    (hupdated : dateNorm e.metadata.updated = e.metadata.updated)
    (hid : isUuid e.metadata.id = true)
    (hcd : isZodDatetime e.metadata.created = true)
    (hud : isZodDatetime e.metadata.updated = true)
    (hrel : e.metadata.relations.all isUuid = true)
    (hexp : e.metadata.expires = some none ∨
      ∃ d, e.metadata.expires = some (some d) ∧ dateNorm d = d ∧
        isZodDatetime d = true) :
    parserParse (parserStringify dateNorm e) e.filepath = Except.ok e := by
  obtain ⟨m, content, fp⟩ := e
  obtain ⟨id, title, ty, tags, created, updated, expires, relations⟩ := m
  simp only at hcontent hcreated hupdated hid hcd hud hrel hexp
  rcases hexp with hexp | ⟨d, hexp, hdnorm, hdz⟩
  · subst hexp
    simp [parserParse, parserStringify, metadataToRaw, zodParseMetadata,
      trimStr_append_newline, hcontent, hcreated, hupdated, hid, hcd, hud, hrel]
  · subst hexp
    simp [parserParse, parserStringify, metadataToRaw, zodParseMetadata,
      trimStr_append_newline, hcontent, hcreated, hupdated, hid, hcd, hud,
      hrel, hdnorm, hdz]

/-- Trim-stable entity with explicit `null` expiry, used to instantiate
the amended round-trip claim. -/
def ctxRT : Context :=
  ⟨⟨str "550e8400-e29b-41d4-a716-446655440000", str "x", str "knowledge", [],
    str "2024-01-01T00:00:00.000Z", str "2024-01-01T00:00:00.000Z", some none, []⟩,
    str "x", some (str "contexts/knowledge/x-550e8400.md")⟩

theorem claim_roundtrip_amended_witness :
    parserParse (parserStringify (fun s => s) ctxRT) ctxRT.filepath = Except.ok ctxRT :=
  claim_roundtrip_amended (fun s => s) ctxRT (by decide) rfl rfl (by decide)
    (by decide) (by decide) (by decide) (Or.inl rfl)

/-- Frontmatter whose `relations` entry is not a UUID; all other fields
are schema-valid. -/
def rawBadRelations : RawMetadata :=
  ⟨some (str "550e8400-e29b-41d4-a716-446655440000"), some (str "t"),
    some (str "knowledge"), some [], some (str "2024-01-01T00:00:00Z"),
    some (str "2024-01-01T00:00:00Z"), some none, some [str "not-a-uuid"]⟩

/-- C9 counterexample.  `relations` is *not* unvalidated: the schema
runs `uuid()` over every entry, so a non-UUID relation makes the parse
throw rather than succeed. -/
theorem claim_relations_unvalidated_counterexample :
    parserParse ⟨rawBadRelations, str "body"⟩ none = Except.error () := by
  decide

/-- C9 (amended).  Any document whose frontmatter lists a non-UUID
string among `relations` fails metadata validation: `parse` raises a
validation error. -/
theorem claim_relations_validated (doc : MarkdownDoc) (fp : Option Str) (r : Str)
    (hr : r ∈ doc.data.relations.getD []) (hbad : isUuid r = false) :
    parserParse doc fp = Except.error () := by
  have hall : (doc.data.relations.getD []).all isUuid = false := by
    cases hx : (doc.data.relations.getD []).all isUuid
    · rfl
    · exact absurd (List.all_eq_true.mp hx r hr) (by simp [hbad])
  unfold parserParse
  suffices h : zodParseMetadata doc.data = Except.error () by rw [h]
  unfold zodParseMetadata
  split
  · rw [if_neg]
    simp [hall]
  · rfl

theorem claim_relations_validated_witness :
    parserParse ⟨rawBadRelations, str "body"⟩ (some (str "f.md")) = Except.error () :=
  claim_relations_validated ⟨rawBadRelations, str "body"⟩ (some (str "f.md"))
    (str "not-a-uuid") (by decide) (by decide)

/-! ## The Entity Store (`ContextStore`, `src/storage/context-store.ts`)

The file tree under `contexts/` is embedded as an association list from
paths to `MarkdownDoc`s, listed in the order `walkDirectory` visits
them.  Git commits and the vector index are external calls whose
outcomes are `Except` parameters; the `try`/`catch` around index calls
discards the outcome (`indexCaught`). -/

/-- Outcome of `try { await index... } catch (error) { console.warn(...) }`:
success and failure are both swallowed. -/
def indexCaught (outcome : Except Unit Unit) : Unit :=
  match outcome with
  | Except.ok _ => ()
  | Except.error _ => ()

/-- A lower-case letter or digit (the characters `generateFilepath`
keeps from a title). -/
def isLowerAlnum (c : Char) : Bool :=
  ('a' ≤ c && c ≤ 'z') || ('0' ≤ c && c ≤ '9')

/-- `replace(/[^a-z0-9]+/g, '-')`: each maximal run of other characters
becomes a single dash.  The flag records being inside such a run. -/
def replaceRunsAux : Str → Bool → Str
  | [], _ => []
  | c :: rest, inRun =>
      if isLowerAlnum c then c :: replaceRunsAux rest false
      else if inRun then replaceRunsAux rest true
      else '-' :: replaceRunsAux rest true

/-- `replace(/^-+|-+$/g, '')`: strip leading and trailing dash runs. -/
def stripEdge (c : Char) (s : Str) : Str :=
  ((s.dropWhile (fun x => x == c)).reverse.dropWhile (fun x => x == c)).reverse

/-- The sanitized title of `generateFilepath`: lower-case, non-alphanumeric
runs to dashes, edge dashes stripped, at most 50 characters. -/
def sanitizeTitle (title : Str) : Str :=
  (stripEdge '-' (replaceRunsAux (lowerStr title) false)).take 50

/-- `replace(/\.\./g, '')`: remove `..` substrings, scanning left to
right without overlap. -/
def removeDotDot : Str → Str
  | '.' :: '.' :: rest => removeDotDot rest
  | c :: rest => c :: removeDotDot rest
  | [] => []

/-- The sanitized directory of `generateFilepath`: strip edge slashes,
then remove parent-directory references. -/
def sanitizeDir (d : Str) : Str := removeDotDot (stripEdge '/' d)

/-- `path.join` over the non-empty segments, `/`-separated. -/
def joinPath (parts : List Str) : Str :=
  joinWith '/' (parts.filter fun p => !p.isEmpty)
where
  joinWith (sep : Char) : List Str → Str
    | [] => []
    | [p] => p
    | p :: rest => p ++ [sep] ++ joinWith sep rest

/-- `ContextStore.generateFilepath`: `storePath/contexts/<dir>/<file>`,
with `<dir>` the sanitized `options.directory ?? type` (an empty custom
directory is falsy and falls back to `type`) and `<file>` built from
the sanitized title and the 8-character id prefix. -/
def generateFilepath (storePath : Str) (c : Context) (customDirectory : Option Str) : Str :=
  let sanitizedTitle := sanitizeTitle c.metadata.title
  let filename := sanitizedTitle ++ ['-'] ++ c.metadata.id.take 8 ++ str ".md"
  let directory :=
    match customDirectory with
    | some d => if d.isEmpty then c.metadata.type else d
    | none => c.metadata.type
  joinPath [storePath, str "contexts", sanitizeDir directory, filename]

/-- The file tree: path to persisted document, in traversal order. -/
abbrev FileTree := List (Str × MarkdownDoc)

/-- `unlink`: drop the entry at a path. -/
def mdel {β : Type} (m : List (Str × β)) (k : Str) : List (Str × β) :=
  m.filter fun p => !(p.1 == k)

/-- `s` ends with `pat`. -/
def endsWithStr (s pat : Str) : Bool := startsWithStr pat.reverse s.reverse

/-- The `findContextFile` walk predicate: an `.md` file whose path
contains the 8-character id prefix and whose parsed id matches exactly
(parse failures are skipped). -/
def matchesId (id : Str) (p : Str × MarkdownDoc) : Bool :=
  endsWithStr p.1 (str ".md") && includesStr p.1 (id.take 8) &&
    (match parserParse p.2 none with
     | Except.ok c => decide (c.metadata.id = id)
     | Except.error _ => false)

/-- `ContextStore.findContextFile`: the walk assigns `found` on every
match, so the last matching path in traversal order wins. -/
def findContextFile (files : FileTree) (id : Str) : Option Str :=
  ((files.filter (matchesId id)).map Prod.fst).getLast?

/-- `ContextStore.read`: locate the file, re-read and re-parse it with
the filepath attached.  The path was found through a successful parse
of the same stored document, so the re-parse cannot fail; `toOption`
records that no error escapes in that reachable state. -/
def readOp (files : FileTree) (id : Str) : Option Context :=
  match findContextFile files id with
  | none => none
  | some fp =>
      match mget files fp with
      | some doc => (parserParse doc (some fp)).toOption
      | none => none

/-- `ContextStore.writeContext`: serialize and write at the path. -/
def writeContextOp (dateNorm : Str → Str) (files : FileTree) (fp : Str)
    (c : Context) : FileTree :=
  mset files fp (parserStringify dateNorm c)

/-- `ContextStore.create` after `createNewContext` has built the
context: write the file, push to the index (outcome swallowed),
optionally stage+commit (a commit failure propagates). -/
def createOp (dateNorm : Str → Str) (storePath : Str) (files : FileTree)
    (c : Context) (customDirectory : Option Str) (idxOutcome : Except Unit Unit)
    (autoCommit : Bool) (commitOutcome : Except Unit Unit) :
    Except Unit (FileTree × Context) :=
  let filepath := generateFilepath storePath c customDirectory
  let files1 := writeContextOp dateNorm files filepath c
  let _idx := indexCaught idxOutcome
  if autoCommit then
    match commitOutcome with
    | Except.ok _ => Except.ok (files1, { c with filepath := some filepath })
    | Except.error e => Except.error e
  else Except.ok (files1, { c with filepath := some filepath })

/-- A partial metadata object passed to `update` (absent fields stay
absent in the spread). -/
structure MetadataPatch where
  id : Option Str := none
  title : Option Str := none
  type : Option Str := none
  tags : Option (List Str) := none
  created : Option Str := none
  updated : Option Str := none
  expires : Option (Option (Option Str)) := none
  relations : Option (List Str) := none
deriving DecidableEq, Repr

/-- `Partial<Context>` as passed to `update`. -/
structure ContextPatch where
  content : Option Str := none
  metadata : Option MetadataPatch := none
  filepath : Option Str := none
deriving DecidableEq, Repr

/-- `{...existing.metadata, ...(updates.metadata || {}), updated: now}`:
shallow merge, with `updated` overwritten last. -/
def mergeMetadata (m : ContextMetadata) (p : MetadataPatch) (now : Str) :
    ContextMetadata :=
  ⟨p.id.getD m.id, p.title.getD m.title, p.type.getD m.type, p.tags.getD m.tags,
    p.created.getD m.created, now, p.expires.getD m.expires,
    p.relations.getD m.relations⟩

/-- The updated context built by `ContextStore.update` (lines 109–117):
`content: updates.content || existing.content` (an empty string is
falsy and keeps the old content), shallow-merged metadata, `filepath`
spread from `existing`. -/
def applyUpdates (existing : Context) (updates : ContextPatch) (now : Str) : Context :=
  { existing with
    content :=
      match updates.content with
      | some c => if c.isEmpty then existing.content else c
      | none => existing.content,
    metadata := mergeMetadata existing.metadata (updates.metadata.getD {}) now }

/-- `ContextStore.update`: read-modify-write at the existing filepath,
index update swallowed, optional commit. -/
def updateOp (dateNorm : Str → Str) (files : FileTree) (id : Str)
    (updates : ContextPatch) (now : Str) (idxOutcome : Except Unit Unit)
    (autoCommit : Bool) (commitOutcome : Except Unit Unit) :
    Except Unit (FileTree × Option Context) :=
  match readOp files id with
  | none => Except.ok (files, none)
  | some existing =>
      match existing.filepath with
      | none => Except.ok (files, none)
      | some fp =>
          let updated := applyUpdates existing updates now
          let files1 := writeContextOp dateNorm files fp updated
          let _idx := indexCaught idxOutcome
          if autoCommit then
            match commitOutcome with
            | Except.ok _ => Except.ok (files1, some updated)
            | Except.error e => Except.error e
          else Except.ok (files1, some updated)

/-- `ContextStore.delete`: locate, read, unlink, index removal
swallowed, optional commit (only when a context was read). -/
def deleteOp (files : FileTree) (id : Str) (idxOutcome : Except Unit Unit)
    (autoCommit : Bool) (commitOutcome : Except Unit Unit) :
    Except Unit (FileTree × Bool) :=
  match findContextFile files id with
  | none => Except.ok (files, false)
  | some fp =>
      let context := readOp files id
      let files1 := mdel files fp
      let _idx := indexCaught idxOutcome
      if autoCommit && context.isSome then
        match commitOutcome with
        | Except.ok _ => Except.ok (files1, true)
        | Except.error e => Except.error e
      else Except.ok (files1, true)

/-- `filter.type && context.metadata.type !== filter.type`: exact string
comparison, no prefix semantics. -/
def typeFilterOk (ftype : Option Str) (c : Context) : Bool :=
  match ftype with
  | some t => decide (c.metadata.type = t)
  | none => true

/-- `filter.tags && filter.tags.length > 0` guard and
`filter.tags.every(tag => context.metadata.tags.includes(tag))`. -/
def tagsFilterOk (ftags : Option (List Str)) (c : Context) : Bool :=
  match ftags with
  | some tags =>
      if tags.length > 0 then tags.all fun tag => c.metadata.tags.contains tag
      else true
  | none => true

/-- The body of the `list` walk for one file: parse `.md` files,
apply the exact-type and all-tags filters; parse failures are logged
and skipped. -/
def listEntry (ftype : Option Str) (ftags : Option (List Str))
    (p : Str × MarkdownDoc) : Option Context :=
  if endsWithStr p.1 (str ".md") then
    match parserParse p.2 (some p.1) with
    | Except.ok c =>
        if typeFilterOk ftype c && tagsFilterOk ftags c then some c else none
    | Except.error _ => none
  else none

/-- `ContextStore.list`: parse every file, filter, sort by `updated`
descending.  `new Date(x).getTime()` on the `updated` strings is the
external Date parser, kept abstract as `timeVal`. -/
def listOp (timeVal : Str → ℤ) (files : FileTree) (ftype : Option Str)
    (ftags : Option (List Str)) : List Context :=
  sortDescBy (fun c => timeVal c.metadata.updated)
    (files.filterMap (listEntry ftype ftags))

theorem typeFilterOk_iff (ftype : Option Str) (c : Context) :
    typeFilterOk ftype c = true ↔ ∀ t, ftype = some t → c.metadata.type = t := by
  cases ftype <;> simp [typeFilterOk]

theorem tagsFilterOk_iff (ftags : Option (List Str)) (c : Context) :
    tagsFilterOk ftags c = true ↔
      ∀ tags, ftags = some tags → ∀ tag ∈ tags, tag ∈ c.metadata.tags := by
  cases ftags with
  | none => simp [tagsFilterOk]
  | some tags =>
      cases tags with
      | nil => simp [tagsFilterOk]
      | cons t ts =>
          simp [tagsFilterOk, List.all_eq_true, List.elem_iff]

theorem listEntry_eq_some (ftype : Option Str) (ftags : Option (List Str))
    (p : Str × MarkdownDoc) (c : Context) :
    listEntry ftype ftags p = some c ↔
      endsWithStr p.1 (str ".md") = true ∧
      parserParse p.2 (some p.1) = Except.ok c ∧
      typeFilterOk ftype c = true ∧ tagsFilterOk ftags c = true := by
  unfold listEntry
  by_cases hmd : endsWithStr p.1 (str ".md") = true
  · cases hp : parserParse p.2 (some p.1) with
    | error e =>
        simp [hmd, hp]
    | ok c' =>
        simp only [hmd, if_true, hp, true_and]
        by_cases hcond : (typeFilterOk ftype c' && tagsFilterOk ftags c') = true
        · rw [if_pos hcond]
          constructor
          · intro h
            injection h with h
            subst h
            rcases Bool.and_eq_true_iff.mp hcond with ⟨h1, h2⟩
            exact ⟨rfl, h1, h2⟩
          · rintro ⟨h, _, _⟩
            injection h with h
            rw [h]
        · rw [if_neg hcond]
          constructor
          · intro h
            cases h
          · rintro ⟨h, h1, h2⟩
            injection h with h
            subst h
            exact absurd (Bool.and_eq_true_iff.mpr ⟨h1, h2⟩) hcond
  · simp [hmd]

/-- C5.  `list` returns exactly the parseable `.md` entities whose
`type` equals the filter type by exact string comparison and which
contain every required tag, sorted by `updated` (time value)
descending. -/
theorem claim_list_exact_filter (timeVal : Str → ℤ) (files : FileTree)
    (ftype : Option Str) (ftags : Option (List Str)) :
    (∀ c : Context, c ∈ listOp timeVal files ftype ftags ↔
      ∃ p ∈ files, endsWithStr p.1 (str ".md") = true ∧
        parserParse p.2 (some p.1) = Except.ok c ∧
        (∀ t, ftype = some t → c.metadata.type = t) ∧
        (∀ tags, ftags = some tags → ∀ tag ∈ tags, tag ∈ c.metadata.tags))
  ∧ (listOp timeVal files ftype ftags).Pairwise
      (fun c₁ c₂ => timeVal c₂.metadata.updated ≤ timeVal c₁.metadata.updated) := by
  constructor
  · intro c
    have hperm := perm_sortDescBy (fun x : Context => timeVal x.metadata.updated)
      (files.filterMap (listEntry ftype ftags))
    rw [listOp, hperm.mem_iff, List.mem_filterMap]
    constructor
    · rintro ⟨p, hp, he⟩
      obtain ⟨h1, h2, h3, h4⟩ := (listEntry_eq_some ftype ftags p c).mp he
      exact ⟨p, hp, h1, h2, (typeFilterOk_iff ftype c).mp h3,
        (tagsFilterOk_iff ftags c).mp h4⟩
    · rintro ⟨p, hp, h1, h2, h3, h4⟩
      exact ⟨p, hp, (listEntry_eq_some ftype ftags p c).mpr
        ⟨h1, h2, (typeFilterOk_iff ftype c).mpr h3, (tagsFilterOk_iff ftags c).mpr h4⟩⟩
  · exact sorted_sortDescBy _ _

/-- An entity whose `type` is the slash-delimited path
`work/projects/alpha`. -/
def rawW : RawMetadata :=
  ⟨some (str "550e8400-e29b-41d4-a716-446655440000"), some (str "t"),
    some (str "work/projects/alpha"), some [], some (str "2024-01-01T00:00:00Z"),
    some (str "2024-01-01T00:00:00Z"), some none, some []⟩

def docW : MarkdownDoc := ⟨rawW, str "b"⟩

def pathW : Str := str "contexts/work/projects/alpha/t-550e8400.md"

/-- The parse of `docW` at `pathW`. -/
def ctxW : Context :=
  ⟨⟨str "550e8400-e29b-41d4-a716-446655440000", str "t", str "work/projects/alpha",
    [], str "2024-01-01T00:00:00Z", str "2024-01-01T00:00:00Z", some none, []⟩,
    str "b", some pathW⟩

/-- Concrete instance of C5's exact matching: filtering on type `work`
excludes the entity typed `work/projects/alpha` (no prefix matching). -/
theorem claim_list_exact_filter_witness :
    listOp (fun _ => 0) [(pathW, docW)] (some (str "work")) none = [] := by
  rw [List.eq_nil_iff_forall_not_mem]
  intro c hc
  obtain ⟨p, hp, hmd, hparse, htype, _⟩ :=
    ((claim_list_exact_filter (fun _ => 0) [(pathW, docW)] (some (str "work")) none).1 c).mp hc
  rw [List.mem_singleton] at hp
  subst hp
  have hok : parserParse docW (some pathW) = Except.ok ctxW := by decide
  rw [hok] at hparse
  injection hparse with hparse
  subst hparse
  exact absurd (htype (str "work") rfl) (by decide)

/-! ## The update contract (C4) and index-failure availability (C6) -/

/-- A stored entity used to exercise `update` and `delete`. -/
def rawU : RawMetadata :=
  ⟨some (str "550e8400-e29b-41d4-a716-446655440000"), some (str "t"),
    some (str "knowledge"), some [], some (str "2024-01-01T00:00:00Z"),
    some (str "2024-01-01T00:00:00Z"), some none, some []⟩

def docU : MarkdownDoc := ⟨rawU, str "hello"⟩

def pathU : Str := str "contexts/knowledge/t-550e8400.md"

def filesU : FileTree := [(pathU, docU)]

def idU : Str := str "550e8400-e29b-41d4-a716-446655440000"

/-- The parse of `docU` at `pathU`. -/
def ctxU : Context :=
  ⟨⟨idU, str "t", str "knowledge", [], str "2024-01-01T00:00:00Z",
    str "2024-01-01T00:00:00Z", some none, []⟩, str "hello", some pathU⟩

/-- A patch that supplies an empty content string and new
`metadata.id`/`metadata.created` values. -/
def patchU : ContextPatch :=
  ⟨some [],
    some ⟨some (str "99999999-9999-4999-8999-999999999999"), none, none, none,
      some (str "1999-01-01T00:00:00Z"), none, none, none⟩,
    none⟩

/-- C4 counterexample.  `update(idU, {content: "", metadata: {id, created}})`
on a known id: the given (empty) content is *not* taken — `||` treats it
as falsy and keeps `"hello"` — while the shallow merge *does* replace
`id` and `created`, so neither "content replaced if given" nor "id and
created preserved" holds as stated. -/
theorem claim_update_contract_counterexample :
    ((updateOp (fun s => s) filesU idU patchU (str "2025-01-01T00:00:00Z")
        (Except.ok ()) false (Except.ok ())).toOption.bind Prod.snd).map
      (fun u => (u.content, u.metadata.id, u.metadata.created)) =
      some (str "hello", str "99999999-9999-4999-8999-999999999999",
        str "1999-01-01T00:00:00Z")
  ∧ patchU.content = some (str "")
  ∧ str "99999999-9999-4999-8999-999999999999" ≠ idU
  ∧ str "1999-01-01T00:00:00Z" ≠ str "2024-01-01T00:00:00Z" := by
  exact ⟨by decide, by decide, by decide, by decide⟩

/-- C4 (amended).  `update` is a read-modify-write: unknown ids yield
`null` and leave the tree unchanged; on a known id the entity is
rewritten in place at its existing filepath with `updated` refreshed,
content replaced only when given *and non-empty* (an empty string is
falsy and keeps the old content), and metadata shallow-merged — which
preserves `id` and `created` exactly when the partial does not itself
supply them. -/
theorem claim_update_contract (dateNorm : Str → Str) (files : FileTree)
    (id : Str) (updates : ContextPatch) (now : Str) (idx : Except Unit Unit) :
    (readOp files id = none →
      updateOp dateNorm files id updates now idx false (Except.ok ()) =
        Except.ok (files, none))
  ∧ (∀ existing fp, readOp files id = some existing → existing.filepath = some fp →
      updateOp dateNorm files id updates now idx false (Except.ok ()) =
        Except.ok (writeContextOp dateNorm files fp (applyUpdates existing updates now),
          some (applyUpdates existing updates now)))
  ∧ (∀ existing : Context,
      (applyUpdates existing updates now).metadata.updated = now
      ∧ (applyUpdates existing updates now).filepath = existing.filepath
      ∧ (updates.content = none →
          (applyUpdates existing updates now).content = existing.content)
      ∧ (updates.content = some (str "") →
          (applyUpdates existing updates now).content = existing.content)
      ∧ (∀ s, updates.content = some s → s ≠ [] →
          (applyUpdates existing updates now).content = s)
      ∧ ((updates.metadata.getD {}).id = none →
          (applyUpdates existing updates now).metadata.id = existing.metadata.id)
      ∧ ((updates.metadata.getD {}).created = none →
          (applyUpdates existing updates now).metadata.created =
            existing.metadata.created)
      ∧ (applyUpdates existing updates now).metadata.title =
          (updates.metadata.getD {}).title.getD existing.metadata.title
      ∧ (applyUpdates existing updates now).metadata.type =
          (updates.metadata.getD {}).type.getD existing.metadata.type
      ∧ (applyUpdates existing updates now).metadata.tags =
          (updates.metadata.getD {}).tags.getD existing.metadata.tags
      ∧ (applyUpdates existing updates now).metadata.relations =
          (updates.metadata.getD {}).relations.getD existing.metadata.relations) := by
  refine ⟨?_, ?_, ?_⟩
  · intro h
    simp [updateOp, h]
  · intro existing fp hread hfp
    simp [updateOp, hread, hfp, writeContextOp]
  · intro existing
    refine ⟨rfl, rfl, ?_, ?_, ?_, ?_, ?_, rfl, rfl, rfl, rfl⟩
    · intro h
      simp [applyUpdates, h]
    · intro h
      simp [applyUpdates, h, str]
    · intro s hs hne
      simp [applyUpdates, hs, List.isEmpty_iff, hne]
    · intro h
      simp [applyUpdates, mergeMetadata, h]
    · intro h
      simp [applyUpdates, mergeMetadata, h]

/-- A patch that renames the entity and replaces its content. -/
def patchT : ContextPatch :=
  ⟨some (str "new content"), some ⟨none, some (str "x2"), none, none, none,
    none, none, none⟩, none⟩

theorem claim_update_contract_witness :
    updateOp (fun s => s) filesU idU patchT (str "2025-01-01T00:00:00Z")
      (Except.ok ()) false (Except.ok ()) =
      Except.ok (writeContextOp (fun s => s) filesU pathU
          (applyUpdates ctxU patchT (str "2025-01-01T00:00:00Z")),
        some (applyUpdates ctxU patchT (str "2025-01-01T00:00:00Z")))
  ∧ (applyUpdates ctxU patchT (str "2025-01-01T00:00:00Z")).metadata.id =
      ctxU.metadata.id := by
  have h := claim_update_contract (fun s => s) filesU idU patchT
    (str "2025-01-01T00:00:00Z") (Except.ok ())
  exact ⟨h.2.1 ctxU pathU (by decide) rfl, (h.2.2 ctxU).2.2.2.2.2.1 rfl⟩

theorem mget_mdel_self {β : Type} (m : List (Str × β)) (k : Str) :
    mget (mdel m k) k = none := by
  induction m with
  | nil => rfl
  | cons p rest ih =>
      obtain ⟨k₀, v⟩ := p
      unfold mdel at ih ⊢
      by_cases hk : k₀ = k
      · simpa [List.filter_cons, hk] using ih
      · simpa [List.filter_cons, hk, mget] using ih

/-- C6.  If the index backend throws during its add/update/remove call,
`create`/`update`/`delete` return exactly what they return when it
succeeds; in particular `create` still writes the file (readable at the
generated path) and `delete` still unlinks it. -/
theorem claim_index_failure_nonfatal (dateNorm : Str → Str) (storePath : Str)
    (files : FileTree) (c : Context) (cd : Option Str) (id : Str)
    (updates : ContextPatch) (now : Str) (e : Unit) (ac : Bool)
    (co : Except Unit Unit) :
    createOp dateNorm storePath files c cd (Except.error e) ac co =
      createOp dateNorm storePath files c cd (Except.ok ()) ac co
  ∧ updateOp dateNorm files id updates now (Except.error e) ac co =
      updateOp dateNorm files id updates now (Except.ok ()) ac co
  ∧ deleteOp files id (Except.error e) ac co = deleteOp files id (Except.ok ()) ac co
  ∧ createOp dateNorm storePath files c cd (Except.error e) false co =
      Except.ok (writeContextOp dateNorm files (generateFilepath storePath c cd) c,
        { c with filepath := some (generateFilepath storePath c cd) })
  ∧ mget (writeContextOp dateNorm files (generateFilepath storePath c cd) c)
      (generateFilepath storePath c cd) = some (parserStringify dateNorm c)
  ∧ (∀ fp, findContextFile files id = some fp →
      deleteOp files id (Except.error e) false co = Except.ok (mdel files fp, true)
      ∧ mget (mdel files fp) fp = none) := by
  refine ⟨rfl, rfl, rfl, rfl, mget_mset_self _ _ _, ?_⟩
  intro fp hfp
  exact ⟨by simp [deleteOp, hfp], mget_mdel_self files fp⟩

/-- Concrete instance of C6: deleting `idU` with a failing index
backend still unlinks the file and reports success. -/
theorem claim_index_failure_nonfatal_witness :
    deleteOp filesU idU (Except.error ()) false (Except.ok ()) =
      Except.ok (mdel filesU pathU, true)
  ∧ mget (mdel filesU pathU) pathU = none :=
  (claim_index_failure_nonfatal (fun s => s) (str "store") filesU ctxU none idU
    {} (str "2025-01-01T00:00:00Z") () false (Except.ok ())).2.2.2.2.2 pathU
    (by decide)

/-! ## Replication: `RemoteGitStore.pull` and conflict resolution
(`src/storage/remote-git-store.ts` lines 218–306)

The git backend is an external tool; its standard behaviour is
modelled explicitly:

* a repository state carries the working tree, the content of
  `origin/main`, the backup store under `.llmem/conflicts/` (untracked,
  so it survives `reset --hard`), how far the local branch is behind,
  and the files a merge attempt conflicts on;
* `git pull` with diverging commits performs the merge, leaves each
  conflicted file in the working tree with conflict markers
  (`conflictMarked`), and exits non-zero — the `catch` then runs
  `resolveConflictsAutomatically`;
* `git checkout --theirs f` during the stopped merge replaces `f` with
  the `origin/main` version; `git reset --hard origin/main` (the
  resolver's own catch) sets the tracked working tree to the remote
  tip.

Thrown git errors are `Bool`/branch parameters (`fetchOk`,
`gitOpsFail`); `pullOp` is total, embedding "pull never throws". -/

structure RepoState where
  workTree : List (Str × Str)
  remoteTip : List (Str × Str)
  conflictBackups : List (Str × Str)
  behind : Nat
  conflicted : List Str
deriving DecidableEq, Repr

/-- The conflict-marker form `git merge` leaves in a conflicted file. -/
def conflictMarked (ours theirs : Str) : Str :=
  str "<<<<<<< HEAD\n" ++ ours ++ str "\n=======\n" ++ theirs ++
    str "\n>>>>>>> origin/main\n"

/-- The backup path used by `backupConflictedFile`:
`.llmem/conflicts/<timestamp>/<filepath with slashes replaced by _>`. -/
def backupName (ts f : Str) : Str :=
  str ".llmem/conflicts/" ++ ts ++ ['/'] ++
    f.map (fun ch => if ch = '/' then '_' else ch)

/-- One conflicted file after the failed merge: markers combining the
local and remote hunks (files missing on either side are left alone). -/
def markOne (remoteTip wt : List (Str × Str)) (f : Str) : List (Str × Str) :=
  match mget wt f, mget remoteTip f with
  | some ours, some theirs => mset wt f (conflictMarked ours theirs)
  | _, _ => wt

/-- The working tree `git pull` leaves behind when the merge stops on
conflicts. -/
def markConflicts (s : RepoState) : List (Str × Str) :=
  s.conflicted.foldl (markOne s.remoteTip) s.workTree

/-- `resolveFileConflict`: back up the current working-tree version of
`f` (its own failure is caught), then `checkout --theirs f`.  The
accumulator is (working tree, backup store). -/
def resolveStep (ts : Str) (remoteTip : List (Str × Str))
    (acc : List (Str × Str) × List (Str × Str)) (f : Str) :
    List (Str × Str) × List (Str × Str) :=
  let backups :=
    match mget acc.1 f with
    | some cur => mset acc.2 (backupName ts f) cur
    | none => acc.2
  let wt :=
    match mget remoteTip f with
    | some theirs => mset acc.1 f theirs
    | none => acc.1
  (wt, backups)

/-- `resolveConflictsAutomatically`: resolve each conflicted file, then
stage and commit; if the git operations themselves fail
(`gitOpsFail`), hard-reset the tracked tree to `origin/main` (the
untracked backups survive). -/
def resolveConflictsAutomatically (ts : Str) (gitOpsFail : Bool) (s : RepoState) :
    RepoState :=
  if s.conflicted.isEmpty then s
  else
    let res := s.conflicted.foldl (resolveStep ts s.remoteTip)
      (s.workTree, s.conflictBackups)
    if gitOpsFail then
      { s with workTree := s.remoteTip, conflictBackups := res.2 }
    else
      { s with workTree := res.1, conflictBackups := res.2 }

/-- A clean merge for a behind-only repository: remote entries land in
the working tree. -/
def overwriteWith (base updates : List (Str × Str)) : List (Str × Str) :=
  updates.foldl (fun acc p => mset acc p.1 p.2) base

/-- `RemoteGitStore.pull`: no-op without a remote; a failed fetch is
caught by the outer `try`; nothing to do unless behind; a clean merge
applies the remote changes; a conflicted merge leaves markers and the
`catch` runs the automatic resolver. -/
def pullOp (remoteConfigured fetchOk : Bool) (ts : Str) (gitOpsFail : Bool)
    (s : RepoState) : RepoState :=
  if !remoteConfigured then s
  else if !fetchOk then s
  else if s.behind = 0 then s
  else if s.conflicted.isEmpty then
    { s with workTree := overwriteWith s.workTree s.remoteTip, behind := 0 }
  else
    resolveConflictsAutomatically ts gitOpsFail { s with workTree := markConflicts s }

theorem markFold_untouched (rt : List (Str × Str)) (fs : List Str)
    (wt : List (Str × Str)) (f : Str) (hf : f ∉ fs) :
    mget (fs.foldl (markOne rt) wt) f = mget wt f := by
  induction fs generalizing wt with
  | nil => rfl
  | cons g rest ih =>
      simp only [List.mem_cons, not_or] at hf
      simp only [List.foldl_cons]
      rw [ih _ hf.2]
      unfold markOne
      cases mget wt g <;> cases mget rt g <;> simp [mget_mset_ne _ _ _ _ hf.1]

theorem markFold_mem (rt : List (Str × Str)) (fs : List Str)
    (wt : List (Str × Str)) (f : Str) (ours theirs : Str) (hnd : fs.Nodup)
    (hf : f ∈ fs) (hours : mget wt f = some ours) (hth : mget rt f = some theirs) :
    mget (fs.foldl (markOne rt) wt) f = some (conflictMarked ours theirs) := by
  induction fs generalizing wt with
  | nil => cases hf
  | cons g rest ih =>
      simp only [List.nodup_cons] at hnd
      rcases List.mem_cons.mp hf with rfl | hf'
      · simp only [List.foldl_cons]
        rw [markFold_untouched rt rest _ _ hnd.1]
        unfold markOne
        rw [hours, hth]
        exact mget_mset_self _ _ _
      · have hfg : f ≠ g := fun h => hnd.1 (h ▸ hf')
        simp only [List.foldl_cons]
        refine ih _ hnd.2 hf' ?_
        unfold markOne
        cases mget wt g <;> cases mget rt g <;>
          simp [mget_mset_ne _ _ _ _ hfg, hours]

theorem resolveFold_untouched (ts : Str) (rt : List (Str × Str)) (fs : List Str)
    (acc : List (Str × Str) × List (Str × Str)) (f : Str) (hf : f ∉ fs)
    (hbn : backupName ts f ∉ fs.map (backupName ts)) :
    mget (fs.foldl (resolveStep ts rt) acc).1 f = mget acc.1 f
  ∧ mget (fs.foldl (resolveStep ts rt) acc).2 (backupName ts f) =
      mget acc.2 (backupName ts f) := by
  induction fs generalizing acc with
  | nil => exact ⟨rfl, rfl⟩
  | cons g rest ih =>
      simp only [List.mem_cons, not_or] at hf
      simp only [List.map_cons, List.mem_cons, not_or] at hbn
      simp only [List.foldl_cons]
      obtain ⟨ih1, ih2⟩ := ih (resolveStep ts rt acc g) hf.2 hbn.2
      refine ⟨?_, ?_⟩
      · rw [ih1]
        unfold resolveStep
        cases mget rt g <;> simp [mget_mset_ne _ _ _ _ hf.1]
      · rw [ih2]
        unfold resolveStep
        cases mget acc.1 g <;> simp [mget_mset_ne _ _ _ _ hbn.1]

theorem resolveFold_mem (ts : Str) (rt : List (Str × Str)) (fs : List Str)
    (acc : List (Str × Str) × List (Str × Str)) (f : Str) (cur theirs : Str)
    (hnd : (fs.map (backupName ts)).Nodup) (hf : f ∈ fs)
    (hcur : mget acc.1 f = some cur) (hth : mget rt f = some theirs) :
    mget (fs.foldl (resolveStep ts rt) acc).1 f = some theirs
  ∧ mget (fs.foldl (resolveStep ts rt) acc).2 (backupName ts f) = some cur := by
  induction fs generalizing acc with
  | nil => cases hf
  | cons g rest ih =>
      simp only [List.map_cons, List.nodup_cons] at hnd
      rcases List.mem_cons.mp hf with rfl | hf'
      · have hfr : f ∉ rest := fun h =>
          hnd.1 (List.mem_map_of_mem (backupName ts) h)
        simp only [List.foldl_cons]
        obtain ⟨h1, h2⟩ := resolveFold_untouched ts rt rest
          (resolveStep ts rt acc f) f hfr hnd.1
        refine ⟨?_, ?_⟩
        · rw [h1]
          unfold resolveStep
          rw [hth]
          simp [mget_mset_self]
        · rw [h2]
          unfold resolveStep
          rw [hcur]
          cases mget rt f <;> simp [mget_mset_self]
      · have hgf : f ≠ g := by
          intro h
          subst h
          exact hnd.1 (List.mem_map_of_mem (backupName ts) hf')
        simp only [List.foldl_cons]
        refine ih (resolveStep ts rt acc g) hnd.2 hf' ?_
        unfold resolveStep
        cases mget rt g <;> simp [mget_mset_ne _ _ _ _ hgf, hcur]

/-- A repository whose local and remote branches diverge on `f.md`. -/
def repoS : RepoState :=
  ⟨[(str "f.md", str "local")], [(str "f.md", str "remote")], [], 1, [str "f.md"]⟩

/-- C7 counterexample.  After a diverging pull the working tree does
hold the remote version and a backup does land in the timestamped
conflicts folder — but the backup is the merge-conflicted file (local
and remote hunks between conflict markers), not a copy of the local
version: `backupConflictedFile` copies the working-tree file *after*
`git pull` has already written conflict markers into it.  No backup
entry equals the local version. -/
theorem claim_pull_conflict_counterexample :
    mget (pullOp true true (str "2024-01-01") false repoS).workTree (str "f.md") =
      some (str "remote")
  ∧ mget (pullOp true true (str "2024-01-01") false repoS).conflictBackups
      (backupName (str "2024-01-01") (str "f.md")) =
      some (conflictMarked (str "local") (str "remote"))
  ∧ conflictMarked (str "local") (str "remote") ≠ str "local"
  ∧ (pullOp true true (str "2024-01-01") false repoS).conflictBackups.all
      (fun p => !(p.2 == str "local")) = true := by
  exact ⟨by decide, by decide, by decide, by decide⟩

/-- C7 (amended).  For every diverging pull (behind, with conflicted
files), `pull` is total (never throws: fetch and commit failures are
caught); afterwards the working tree holds the remote version of each
conflicted file, and the timestamped conflicts folder holds a backup of
the conflicted working-tree form of the file — the conflict-marker
combination of the local and remote versions. -/
theorem claim_pull_conflict_resolution (ts : Str) (gitOpsFail : Bool)
    (s : RepoState) (f ours theirs : Str)
    (hbehind : 0 < s.behind)
    (hconf : f ∈ s.conflicted)
    (hnd : (s.conflicted.map (backupName ts)).Nodup)
    (hours : mget s.workTree f = some ours)
    (hth : mget s.remoteTip f = some theirs) :
    mget (pullOp true true ts gitOpsFail s).workTree f = some theirs
  ∧ mget (pullOp true true ts gitOpsFail s).conflictBackups (backupName ts f) =
      some (conflictMarked ours theirs) := by
  obtain ⟨wt, rt, bk, behind, confl⟩ := s
  simp only at hbehind hconf hnd hours hth
  have hb0 : ¬ behind = 0 := Nat.pos_iff_ne_zero.mp hbehind
  have hneI : ¬ (confl.isEmpty = true) := by
    cases confl
    · cases hconf
    · simp
  have hmark : mget (confl.foldl (markOne rt) wt) f = some (conflictMarked ours theirs) :=
    markFold_mem rt confl wt f ours theirs (List.Nodup.of_map _ hnd) hconf hours hth
  have hres := resolveFold_mem ts rt confl (confl.foldl (markOne rt) wt, bk) f
    (conflictMarked ours theirs) theirs hnd hconf hmark hth
  cases gitOpsFail with
  | false =>
      have hstep : pullOp true true ts false ⟨wt, rt, bk, behind, confl⟩ =
          { workTree := (confl.foldl (resolveStep ts rt)
                (confl.foldl (markOne rt) wt, bk)).1,
            remoteTip := rt,
            conflictBackups := (confl.foldl (resolveStep ts rt)
                (confl.foldl (markOne rt) wt, bk)).2,
            behind := behind, conflicted := confl } := by
        simp [pullOp, resolveConflictsAutomatically, markConflicts, hb0, hneI]
      rw [hstep]
      exact ⟨hres.1, hres.2⟩
  | true =>
      have hstep : pullOp true true ts true ⟨wt, rt, bk, behind, confl⟩ =
          { workTree := rt, remoteTip := rt,
            conflictBackups := (confl.foldl (resolveStep ts rt)
                (confl.foldl (markOne rt) wt, bk)).2,
            behind := behind, conflicted := confl } := by
        simp [pullOp, resolveConflictsAutomatically, markConflicts, hb0, hneI]
      rw [hstep]
      exact ⟨hth, hres.2⟩

/-- Concrete instance of the amended C7 claim on the diverging
repository `repoS`. -/
theorem claim_pull_conflict_resolution_witness :
    mget (pullOp true true (str "T") false repoS).workTree (str "f.md") =
      some (str "remote")
  ∧ mget (pullOp true true (str "T") false repoS).conflictBackups
      (backupName (str "T") (str "f.md")) =
      some (conflictMarked (str "local") (str "remote")) :=
  claim_pull_conflict_resolution (str "T") false repoS (str "f.md")
    (str "local") (str "remote") (by decide) (by decide) (by decide)
    (by decide) (by decide)

end LLMem
